import Mathlib

/-!
# Yahtzee scoring rules (`src/Rules.js`)

A shallow embedding of the rule engine of the game.  A hand of dice is a
`List Int` (the JavaScript array of die values, which are integers).
A rule evaluation returns `Option Int`: `none` stands for a thrown
`TypeError`, `some n` for a returned number `n`.

JavaScript containers are embedded as lists in insertion order:

* `new Set(dice)` is the list of distinct values in order of first insertion;
* `new Map()` is an association list in order of first insertion of each key.
-/

namespace Rules

/-! ## JavaScript `Set` and `Map` -/

/-- JavaScript `Set.prototype.add`: a value already present leaves the set unchanged, a new
value is appended in insertion order. -/
def setAdd (s : List Int) (d : Int) : List Int :=
  if d ∈ s then s else s ++ [d]

/-- The constructor call `new Set(dice)`: the values of the array are added one by one, left to right. -/
def mkSet (dice : List Int) : List Int :=
  dice.foldl setAdd []

/-- JavaScript `Set.prototype.has`. -/
def setHas (s : List Int) (d : Int) : Bool :=
  decide (d ∈ s)

/-- JavaScript `Set.prototype.size`. -/
def setSize (s : List Int) : Nat :=
  s.length

/-- JavaScript `Map.prototype.get`: the value stored under the key, `none` for `undefined`. -/
def mapGet : List (Int × Nat) → Int → Option Nat
  | [], _ => none
  | (k, v) :: m, d => if k = d then some v else mapGet m d

/-- JavaScript `Map.prototype.set`: an existing key keeps its position and gets the new
value, a new key is appended in insertion order. -/
def mapSet : List (Int × Nat) → Int → Nat → List (Int × Nat)
  | [], d, c => [(d, c)]
  | (k, v) :: m, d, c => if k = d then (k, c) :: m else (k, v) :: mapSet m d c

/-- JavaScript `Map.prototype.values` followed by `Array.from`. -/
def mapValues (m : List (Int × Nat)) : List Nat :=
  m.map Prod.snd

/-- The expression `x || 0` on the result of `Map.prototype.get`: `undefined` and `0`
are falsy and give `0`, every other number is returned as it is. -/
def orZero : Option Nat → Nat
  | none => 0
  | some c => if c = 0 then 0 else c

/-! ## `class Rule`: the shared statistics helpers -/

/-- Method `Rule.sum`: `dice.reduce((prev, curr) => prev + curr)` without an initial value.
On the empty array `reduce` throws a `TypeError` (`none`); otherwise the first
element is the initial accumulator. -/
def Rule.sum : List Int → Option Int
  | [] => none
  | d :: rest => some (rest.foldl (fun prev curr => prev + curr) d)

/-- The loop body of `Rule.freq`: `freqs.set(d, (freqs.get(d) || 0) + 1)`. -/
def Rule.freqStep (freqs : List (Int × Nat)) (d : Int) : List (Int × Nat) :=
  mapSet freqs d (orZero (mapGet freqs d) + 1)

/-- The map built by the `for` loop of `Rule.freq`. -/
def Rule.freqMap (dice : List Int) : List (Int × Nat) :=
  dice.foldl Rule.freqStep []

/-- Method `Rule.freq`: frequencies of dice values, `Array.from(freqs.values())`. -/
def Rule.freq (dice : List Int) : List Nat :=
  mapValues (Rule.freqMap dice)

/-- Method `Rule.count`: `dice.filter(d => d === val).length`. -/
def Rule.count (dice : List Int) (val : Int) : Nat :=
  (dice.filter (fun d => decide (d = val))).length

/-! ## The rule classes -/

/-- Parameters of a `TotalOneNumber` rule. -/
structure TotalOneNumber where
  /-- The sought-for die value. -/
  val : Int
  deriving DecidableEq, Repr

/-- Parameters of a `SumDistro` rule. -/
structure SumDistro where
  /-- The required number of equal dice. -/
  count : Int
  deriving DecidableEq, Repr

/-- Parameters of a `FullHouse` rule. -/
structure FullHouse where
  /-- The flat payout. -/
  score : Int
  deriving DecidableEq, Repr

/-- Parameters of a `SmallStraight` rule. -/
structure SmallStraight where
  /-- The flat payout. -/
  score : Int
  deriving DecidableEq, Repr

/-- Parameters of a `LargeStraight` rule. -/
structure LargeStraight where
  /-- The flat payout. -/
  score : Int
  deriving DecidableEq, Repr

/-- Parameters of a `Yahtzee` rule. -/
structure Yahtzee where
  /-- The flat payout. -/
  score : Int
  deriving DecidableEq, Repr

/-- Method `TotalOneNumber.evalRoll`: `this.val * this.count(dice, this.val)`. -/
def TotalOneNumber.evalRoll (r : TotalOneNumber) (dice : List Int) : Option Int :=
  some (r.val * (Rule.count dice r.val : Int))

/-- Method `SumDistro.evalRoll`:
`this.freq(dice).some(c => c >= this.count) ? this.sum(dice) : 0`. -/
def SumDistro.evalRoll (r : SumDistro) (dice : List Int) : Option Int :=
  if (Rule.freq dice).any (fun c => decide ((c : Int) ≥ r.count)) then Rule.sum dice
  else some 0

/-- Method `FullHouse.evalRoll`: `freqs.includes(2) && freqs.includes(3) ? this.score : 0`. -/
def FullHouse.evalRoll (r : FullHouse) (dice : List Int) : Option Int :=
  let freqs := Rule.freq dice
  if freqs.contains 2 && freqs.contains 3 then some r.score else some 0

/-- Method `SmallStraight.evalRoll`, with the two `if` statements as they are
parenthesised in the source. -/
def SmallStraight.evalRoll (r : SmallStraight) (dice : List Int) : Option Int :=
  let d := mkSet dice
  if (setHas d 2 && setHas d 3 && setHas d 4 && setHas d 1) || setHas d 5 then
    some r.score
  else if (setHas d 3 && setHas d 4 && setHas d 5 && setHas d 2) || setHas d 6 then
    some r.score
  else some 0

/-- Method `LargeStraight.evalRoll`:
`d.size === 5 && (!d.has(1) || !d.has(6)) ? this.score : 0`. -/
def LargeStraight.evalRoll (r : LargeStraight) (dice : List Int) : Option Int :=
  let d := mkSet dice
  if decide (setSize d = 5) && (!setHas d 1 || !setHas d 6) then some r.score
  else some 0

/-- Method `Yahtzee.evalRoll`: `this.freq(dice)[0] === 5 ? this.score : 0`; indexing an
empty array gives `undefined`, which is not `5`. -/
def Yahtzee.evalRoll (r : Yahtzee) (dice : List Int) : Option Int :=
  if (Rule.freq dice)[0]? = some 5 then some r.score else some 0

/-! ## The registered rule instances -/

/-- The rule `ones`. -/
def ones : TotalOneNumber := { val := 1 }
/-- The rule `twos`. -/
def twos : TotalOneNumber := { val := 2 }
/-- The rule `threes`. -/
def threes : TotalOneNumber := { val := 3 }
/-- The rule `fours`. -/
def fours : TotalOneNumber := { val := 4 }
/-- The rule `fives`. -/
def fives : TotalOneNumber := { val := 5 }
/-- The rule `sixes`. -/
def sixes : TotalOneNumber := { val := 6 }
/-- The rule `threeOfKind`. -/
def threeOfKind : SumDistro := { count := 3 }
/-- The rule `fourOfKind`. -/
def fourOfKind : SumDistro := { count := 4 }
/-- The rule `fullHouse`. -/
def fullHouse : FullHouse := { score := 25 }
/-- The rule `smallStraight`. -/
def smallStraight : SmallStraight := { score := 30 }
/-- The rule `largeStraight`. -/
def largeStraight : LargeStraight := { score := 40 }
/-- The rule `yahtzee`. -/
def yahtzee : Yahtzee := { score := 50 }
/-- The rule `chance`. -/
def chance : SumDistro := { count := 0 }

/-- The `evalRoll` functions of the thirteen exported rules, in export order. -/
def exportedRules : List (List Int → Option Int) :=
  [ones.evalRoll, twos.evalRoll, threes.evalRoll, fours.evalRoll, fives.evalRoll,
   sixes.evalRoll, threeOfKind.evalRoll, fourOfKind.evalRoll, fullHouse.evalRoll,
   smallStraight.evalRoll, largeStraight.evalRoll, yahtzee.evalRoll, chance.evalRoll]

/-- A hand as the specification describes it: five dice, each showing 1 to 6. -/
def IsHand (dice : List Int) : Prop :=
  dice.length = 5 ∧ ∀ d ∈ dice, 1 ≤ d ∧ d ≤ 6

instance (dice : List Int) : Decidable (IsHand dice) := by
  unfold IsHand; infer_instance

/-- The set of values of the hand contains four consecutive values. -/
def HasRunOfFour (dice : List Int) : Prop :=
  (1 ∈ dice ∧ 2 ∈ dice ∧ 3 ∈ dice ∧ 4 ∈ dice) ∨
  (2 ∈ dice ∧ 3 ∈ dice ∧ 4 ∈ dice ∧ 5 ∈ dice) ∨
  (3 ∈ dice ∧ 4 ∈ dice ∧ 5 ∈ dice ∧ 6 ∈ dice)

instance (dice : List Int) : Decidable (HasRunOfFour dice) := by
  unfold HasRunOfFour; infer_instance

/-- Specification side of `Rule.freq`: the distinct values of a list in order of
first occurrence. The head is kept and removed from the distinct values of the
tail. -/
def distinctInOrder : List Int → List Int
  | [] => []
  | a :: t => a :: (distinctInOrder t).filter (fun x => decide (x ≠ a))

/-! ## The component `RuleRow` (`components/rule-row/RuleRow.component.jsx`) -/

/-- The JavaScript values that a `score` prop can hold. -/
inductive JsVal where
  /-- The value `undefined`: the category was not played yet. -/
  | undefined
  /-- The value `null`. -/
  | null
  /-- A number. -/
  | number (n : Int)
  /-- A boolean. -/
  | boolean (b : Bool)
  /-- A string. -/
  | string (s : String)
  deriving DecidableEq, Repr

/-- The loose comparison `v != undefined`: only `undefined` and `null` are loosely equal
to `undefined`. -/
def JsVal.looseNeUndefined : JsVal → Bool
  | JsVal.undefined => false
  | JsVal.null => false
  | _ => true

/-- The props read by `RuleRow.render`; `H` is the type of click handlers. -/
structure RuleRowProps (H : Type) where
  /-- The score of the category, `undefined` when not played. -/
  score : JsVal
  /-- The displayed name of the category. -/
  name : String
  /-- The click handler that scores the category. -/
  doScore : H
  /-- The description shown as a tooltip. -/
  description : String

/-- The table row returned by `RuleRow.render`; `none` stands for the attribute value
`null`. -/
structure RuleRowView (H : Type) where
  /-- Attribute `className` of the `tr`. -/
  className : String
  /-- Attribute `onClick` of the `tr`. -/
  onClick : Option H
  /-- Attribute `data-tip` of the cell `RuleRow-name`. -/
  nameTip : Option String
  /-- Content of the cell `RuleRow-name`. -/
  nameText : String
  /-- Attribute `data-tip` of the cell `RuleRow-score`. -/
  scoreTip : Option String
  /-- Content of the cell `RuleRow-score`. -/
  scoreText : JsVal

/-- Method `RuleRow.render`: `disabled` is `score != undefined`, and the class, the
click handler and both tooltips are chosen by it. -/
def RuleRow.render {H : Type} (props : RuleRowProps H) : RuleRowView H :=
  let disabled := props.score.looseNeUndefined
  { className := "RuleRow RuleRow-" ++ (if disabled then "disabled" else "active")
    onClick := if disabled then none else some props.doScore
    nameTip := if disabled then none else some props.description
    nameText := props.name
    scoreTip := if disabled then none else some props.description
    scoreText := props.score }

/-- A row is rendered as disabled: class `RuleRow-disabled`, no click handler and no
tooltip text. -/
def RenderedDisabled {H : Type} (view : RuleRowView H) : Prop :=
  view.className = "RuleRow RuleRow-disabled" ∧ view.onClick = none ∧
    view.nameTip = none ∧ view.scoreTip = none

/-- A row is rendered as active for the given props: class `RuleRow-active`, click
handler `doScore`, tooltip `description`. -/
def RenderedActive {H : Type} (props : RuleRowProps H) (view : RuleRowView H) : Prop :=
  view.className = "RuleRow RuleRow-active" ∧ view.onClick = some props.doScore ∧
    view.nameTip = some props.description ∧ view.scoreTip = some props.description

/-! ## Facts about the embedded `Set` -/

theorem mem_foldl_setAdd (t s : List Int) (x : Int) :
    x ∈ t.foldl setAdd s ↔ x ∈ s ∨ x ∈ t := by
  induction t generalizing s with
  | nil => simp
  | cons d t ih =>
    rw [List.foldl_cons, ih]
    unfold setAdd
    by_cases h : d ∈ s
    · simp only [h, if_true, List.mem_cons]
      constructor
      · rintro (hx | hx)
        · exact Or.inl hx
        · exact Or.inr (Or.inr hx)
      · rintro (hx | hx | hx)
        · exact Or.inl hx
        · exact Or.inl (hx ▸ h)
        · exact Or.inr hx
    · simp only [h, if_false, List.mem_append, List.mem_singleton, List.mem_cons]
      tauto

theorem nodup_foldl_setAdd (t s : List Int) (hs : s.Nodup) :
    (t.foldl setAdd s).Nodup := by
  induction t generalizing s with
  | nil => simpa using hs
  | cons d t ih =>
    rw [List.foldl_cons]
    apply ih
    unfold setAdd
    by_cases h : d ∈ s
    · simpa [h] using hs
    · simp only [h, if_false]
      rw [List.nodup_append]
      refine ⟨hs, List.nodup_singleton d, ?_⟩
      intro a ha hb
      rw [List.mem_singleton] at hb
      exact h (hb ▸ ha)

theorem mem_mkSet (dice : List Int) (x : Int) : x ∈ mkSet dice ↔ x ∈ dice := by
  unfold mkSet
  rw [mem_foldl_setAdd]
  simp

theorem nodup_mkSet (dice : List Int) : (mkSet dice).Nodup :=
  nodup_foldl_setAdd dice [] List.nodup_nil

theorem mkSet_concat (l : List Int) (d : Int) :
    mkSet (l ++ [d]) = setAdd (mkSet l) d := by
  unfold mkSet
  rw [List.foldl_append]
  rfl

theorem setHas_mkSet (dice : List Int) (x : Int) :
    setHas (mkSet dice) x = decide (x ∈ dice) := by
  unfold setHas
  exact decide_eq_decide.mpr (mem_mkSet dice x)

theorem mkSet_perm {l₁ l₂ : List Int} (h : l₁.Perm l₂) : (mkSet l₁).Perm (mkSet l₂) := by
  rw [List.perm_ext_iff_of_nodup (nodup_mkSet l₁) (nodup_mkSet l₂)]
  intro a
  rw [mem_mkSet, mem_mkSet]
  exact h.mem_iff

theorem mkSet_subperm (dice : List Int) : (mkSet dice).Subperm dice :=
  List.subperm_of_subset (nodup_mkSet dice) (fun x hx => (mem_mkSet dice x).mp hx)

theorem setSize_mkSet_le (dice : List Int) : setSize (mkSet dice) ≤ dice.length :=
  (mkSet_subperm dice).length_le

theorem setSize_mkSet_eq_length_iff (dice : List Int) :
    setSize (mkSet dice) = dice.length ↔ dice.Nodup := by
  constructor
  · intro h
    have hp : (mkSet dice).Perm dice :=
      (mkSet_subperm dice).perm_of_length_le (le_of_eq h.symm)
    exact hp.nodup_iff.mp (nodup_mkSet dice)
  · intro h
    have hp : (mkSet dice).Perm dice := by
      rw [List.perm_ext_iff_of_nodup (nodup_mkSet dice) h]
      exact mem_mkSet dice
    exact hp.length_eq

theorem head?_foldl_setAdd (t s : List Int) (a : Int) :
    (t.foldl setAdd (a :: s)).head? = some a := by
  induction t generalizing s with
  | nil => rfl
  | cons d t ih =>
    rw [List.foldl_cons]
    unfold setAdd
    by_cases h : d ∈ a :: s
    · rw [if_pos h]; exact ih s
    · rw [if_neg h, List.cons_append]; exact ih (s ++ [d])

theorem head?_mkSet (dice : List Int) : (mkSet dice).head? = dice.head? := by
  cases dice with
  | nil => rfl
  | cons a t =>
    have h : mkSet (a :: t) = t.foldl setAdd [a] := rfl
    rw [h, head?_foldl_setAdd]
    rfl

/-! ## Facts about the embedded `Map` and `Rule.freq` -/

theorem mapGet_map (s : List Int) (f : Int → Nat) (d : Int) :
    mapGet (s.map (fun v => (v, f v))) d = if d ∈ s then some (f d) else none := by
  induction s with
  | nil => rfl
  | cons a s ih =>
    simp only [List.map_cons, mapGet, List.mem_cons]
    by_cases h : a = d
    · subst h; simp
    · have h2 : ¬ d = a := fun e => h e.symm
      simp only [h, h2, if_false, false_or]
      exact ih

theorem mapSet_map_of_not_mem (s : List Int) (f : Int → Nat) (d : Int) (c : Nat)
    (hd : d ∉ s) :
    mapSet (s.map (fun v => (v, f v))) d c = s.map (fun v => (v, f v)) ++ [(d, c)] := by
  induction s with
  | nil => rfl
  | cons a s ih =>
    have h1 : ¬ a = d := fun e => hd (e ▸ List.mem_cons_self a s)
    have h2 : d ∉ s := fun e => hd (List.mem_cons_of_mem a e)
    simp only [List.map_cons, mapSet, h1, if_false, List.cons_append]
    rw [ih h2]

theorem mapSet_map_of_mem (s : List Int) (f : Int → Nat) (d : Int) (c : Nat)
    (hs : s.Nodup) (hd : d ∈ s) :
    mapSet (s.map (fun v => (v, f v))) d c =
      s.map (fun v => (v, if v = d then c else f v)) := by
  induction s with
  | nil => simp at hd
  | cons a s ih =>
    rw [List.nodup_cons] at hs
    simp only [List.map_cons, mapSet]
    by_cases h : a = d
    · subst h
      simp only [if_true]
      congr 1
      apply List.map_congr_left
      intro v hv
      have : ¬ v = a := fun e => hs.1 (e ▸ hv)
      simp [this]
    · simp only [h, if_false]
      congr 1
      apply ih hs.2
      rcases List.mem_cons.mp hd with e | e
      · exact absurd e.symm h
      · exact e

theorem freqMap_concat (l : List Int) (d : Int) :
    Rule.freqMap (l ++ [d]) = Rule.freqStep (Rule.freqMap l) d := by
  unfold Rule.freqMap
  rw [List.foldl_append]
  rfl

/-- The map built by `Rule.freq` has one entry per distinct value, in order of first
occurrence, holding the number of occurrences of that value. -/
theorem freqMap_eq (dice : List Int) :
    Rule.freqMap dice = (mkSet dice).map (fun v => (v, dice.count v)) := by
  induction dice using List.reverseRecOn with
  | nil => rfl
  | append_singleton l d ih =>
    rw [freqMap_concat, mkSet_concat, ih]
    unfold Rule.freqStep setAdd
    rw [mapGet_map]
    by_cases h : d ∈ mkSet l
    · rw [if_pos h, if_pos h, mapSet_map_of_mem _ _ _ _ (nodup_mkSet l) h]
      apply List.map_congr_left
      intro v _
      by_cases e : v = d
      · subst e
        have : orZero (some (List.count v l)) = List.count v l := by
          show (if List.count v l = 0 then 0 else List.count v l) = List.count v l
          split_ifs with h0
          · exact h0.symm
          · rfl
        simp [this]
      · simp [e, List.count_append, List.count_singleton]
    · rw [if_neg h, if_neg h, mapSet_map_of_not_mem _ _ _ _ h, List.map_append]
      have hl : d ∉ l := fun e => h ((mem_mkSet l d).mpr e)
      congr 1
      · apply List.map_congr_left
        intro v hv
        have e : ¬ v = d := fun e => h (e ▸ hv)
        simp [List.count_append, List.count_singleton]
        intro e2; exact absurd e2.symm e
      · simp [orZero, List.count_append, List.count_eq_zero_of_not_mem hl]

theorem freq_eq (dice : List Int) :
    Rule.freq dice = (mkSet dice).map (fun v => dice.count v) := by
  unfold Rule.freq mapValues
  rw [freqMap_eq, List.map_map]
  rfl

theorem mem_freq (dice : List Int) (c : Nat) :
    c ∈ Rule.freq dice ↔ ∃ v ∈ dice, dice.count v = c := by
  rw [freq_eq, List.mem_map]
  constructor
  · rintro ⟨v, hv, e⟩
    exact ⟨v, (mem_mkSet dice v).mp hv, e⟩
  · rintro ⟨v, hv, e⟩
    exact ⟨v, (mem_mkSet dice v).mpr hv, e⟩

theorem freq_head (dice : List Int) :
    (Rule.freq dice)[0]? = dice.head?.map (fun v => dice.count v) := by
  rw [freq_eq, ← List.head?_eq_getElem?, List.head?_map, head?_mkSet]

theorem count_eq (dice : List Int) (val : Int) : Rule.count dice val = dice.count val := by
  unfold Rule.count
  rw [List.count, List.countP_eq_length_filter]
  congr 1

theorem sum_eq (d : Int) (rest : List Int) :
    Rule.sum (d :: rest) = some (d :: rest).sum := by
  show some (rest.foldl (fun prev curr => prev + curr) d) = some (d :: rest).sum
  congr 1
  induction rest generalizing d with
  | nil => simp
  | cons a t ih => rw [List.foldl_cons, ih]; simp [add_assoc]

/-! ## Characterisations of the rule classes -/

theorem sum_perm {l₁ l₂ : List Int} (h : l₁.Perm l₂) : Rule.sum l₁ = Rule.sum l₂ := by
  cases l₁ with
  | nil => rw [List.nil_perm.mp h]
  | cons a t =>
    cases l₂ with
    | nil => exact absurd (List.perm_nil.mp h) (List.cons_ne_nil a t)
    | cons b u => rw [sum_eq, sum_eq, h.sum_eq]

theorem largeStraight_cond (dice : List Int) :
    (decide (setSize (mkSet dice) = 5) && (!setHas (mkSet dice) 1 || !setHas (mkSet dice) 6))
      = true ↔ (mkSet dice).length = 5 ∧ (1 ∉ dice ∨ 6 ∉ dice) := by
  simp [setSize, setHas_mkSet]

theorem LargeStraight_evalRoll_pos (r : LargeStraight) (dice : List Int)
    (h : (mkSet dice).length = 5 ∧ (1 ∉ dice ∨ 6 ∉ dice)) :
    r.evalRoll dice = some r.score := by
  unfold LargeStraight.evalRoll
  exact if_pos ((largeStraight_cond dice).mpr h)

theorem LargeStraight_evalRoll_neg (r : LargeStraight) (dice : List Int)
    (h : ¬ ((mkSet dice).length = 5 ∧ (1 ∉ dice ∨ 6 ∉ dice))) :
    r.evalRoll dice = some 0 := by
  unfold LargeStraight.evalRoll
  exact if_neg (fun c => h ((largeStraight_cond dice).mp c))

theorem perm_of_nodup_of_subset {dice run : List Int} (hn : dice.Nodup)
    (hsub : dice ⊆ run) (hlen : run.length ≤ dice.length) : dice.Perm run :=
  (List.subperm_of_subset hn hsub).perm_of_length_le hlen

theorem subset_low_run {dice : List Int} (h : IsHand dice) (h6 : 6 ∉ dice) :
    dice ⊆ [1, 2, 3, 4, 5] := by
  intro x hx
  have hb := h.2 x hx
  have hne : x ≠ 6 := fun e => h6 (e ▸ hx)
  have hx5 : x ≤ 5 := by omega
  have : x = 1 ∨ x = 2 ∨ x = 3 ∨ x = 4 ∨ x = 5 := by omega
  simpa using this

theorem subset_high_run {dice : List Int} (h : IsHand dice) (h1 : 1 ∉ dice) :
    dice ⊆ [2, 3, 4, 5, 6] := by
  intro x hx
  have hb := h.2 x hx
  have hne : x ≠ 1 := fun e => h1 (e ▸ hx)
  have : x = 2 ∨ x = 3 ∨ x = 4 ∨ x = 5 ∨ x = 6 := by omega
  simpa using this

theorem sumDistro_cond (n : Int) (dice : List Int) :
    (Rule.freq dice).any (fun c => decide ((c : Int) ≥ n)) = true ↔
      ∃ v ∈ dice, n ≤ (dice.count v : Int) := by
  rw [List.any_eq_true]
  constructor
  · rintro ⟨c, hc, hdec⟩
    obtain ⟨v, hv, e⟩ := (mem_freq dice c).mp hc
    subst e
    exact ⟨v, hv, by simpa using hdec⟩
  · rintro ⟨v, hv, hle⟩
    exact ⟨dice.count v, (mem_freq dice _).mpr ⟨v, hv, rfl⟩, by simpa using hle⟩

theorem SumDistro_evalRoll_pos (r : SumDistro) (dice : List Int)
    (h : ∃ v ∈ dice, r.count ≤ (dice.count v : Int)) :
    r.evalRoll dice = some dice.sum := by
  unfold SumDistro.evalRoll
  rw [if_pos ((sumDistro_cond r.count dice).mpr h)]
  obtain ⟨v, hv, _⟩ := h
  cases dice with
  | nil => simp at hv
  | cons a t => exact sum_eq a t

theorem SumDistro_evalRoll_neg (r : SumDistro) (dice : List Int)
    (h : ¬ ∃ v ∈ dice, r.count ≤ (dice.count v : Int)) :
    r.evalRoll dice = some 0 := by
  unfold SumDistro.evalRoll
  exact if_neg (fun c => h ((sumDistro_cond r.count dice).mp c))

theorem fullHouse_cond (dice : List Int) :
    ((Rule.freq dice).contains 2 && (Rule.freq dice).contains 3) = true ↔
      (∃ v ∈ dice, dice.count v = 2) ∧ (∃ v ∈ dice, dice.count v = 3) := by
  rw [Bool.and_eq_true, ← mem_freq, ← mem_freq]
  simp

theorem FullHouse_evalRoll_pos (r : FullHouse) (dice : List Int)
    (h : (∃ v ∈ dice, dice.count v = 2) ∧ (∃ v ∈ dice, dice.count v = 3)) :
    r.evalRoll dice = some r.score := by
  unfold FullHouse.evalRoll
  exact if_pos ((fullHouse_cond dice).mpr h)

theorem FullHouse_evalRoll_neg (r : FullHouse) (dice : List Int)
    (h : ¬ ((∃ v ∈ dice, dice.count v = 2) ∧ (∃ v ∈ dice, dice.count v = 3))) :
    r.evalRoll dice = some 0 := by
  unfold FullHouse.evalRoll
  exact if_neg (fun c => h ((fullHouse_cond dice).mp c))

theorem yahtzee_cond (dice : List Int) (hlen : dice.length = 5) :
    (Rule.freq dice)[0]? = some 5 ↔ ∃ v, dice = [v, v, v, v, v] := by
  rw [freq_head]
  cases dice with
  | nil => simp at hlen
  | cons a t =>
    simp only [List.head?_cons, Option.map_some', Option.some.injEq]
    constructor
    · intro hc
      have hall : ∀ b ∈ a :: t, a = b :=
        List.count_eq_length.mp (hc.trans hlen.symm)
      have hrep : a :: t = List.replicate (a :: t).length a :=
        List.eq_replicate_of_mem (fun b hb => (hall b hb).symm)
      rw [hlen] at hrep
      exact ⟨a, hrep⟩
    · rintro ⟨v, hv⟩
      obtain rfl : a = v := (List.cons.inj hv).1
      rw [hv]
      simp

theorem Yahtzee_evalRoll_pos (r : Yahtzee) (dice : List Int) (hlen : dice.length = 5)
    (h : ∃ v, dice = [v, v, v, v, v]) : r.evalRoll dice = some r.score := by
  unfold Yahtzee.evalRoll
  exact if_pos ((yahtzee_cond dice hlen).mpr h)

theorem Yahtzee_evalRoll_neg (r : Yahtzee) (dice : List Int) (hlen : dice.length = 5)
    (h : ¬ ∃ v, dice = [v, v, v, v, v]) : r.evalRoll dice = some 0 := by
  unfold Yahtzee.evalRoll
  exact if_neg (fun c => h ((yahtzee_cond dice hlen).mp c))

/-! ## Order independence of the rule classes -/

theorem exists_count_perm {l₁ l₂ : List Int} (h : l₁.Perm l₂) (P : Nat → Prop) :
    (∃ v ∈ l₁, P (l₁.count v)) ↔ ∃ v ∈ l₂, P (l₂.count v) := by
  constructor
  · rintro ⟨v, hv, hP⟩
    exact ⟨v, h.mem_iff.mp hv, (h.count_eq v) ▸ hP⟩
  · rintro ⟨v, hv, hP⟩
    exact ⟨v, h.mem_iff.mpr hv, (h.count_eq v).symm ▸ hP⟩

theorem TotalOneNumber_evalRoll_perm (r : TotalOneNumber) {l₁ l₂ : List Int}
    (h : l₁.Perm l₂) : r.evalRoll l₁ = r.evalRoll l₂ := by
  unfold TotalOneNumber.evalRoll
  rw [count_eq, count_eq, h.count_eq]

theorem SumDistro_evalRoll_perm (r : SumDistro) {l₁ l₂ : List Int}
    (h : l₁.Perm l₂) : r.evalRoll l₁ = r.evalRoll l₂ := by
  have hc := exists_count_perm h (fun c => r.count ≤ (c : Int))
  by_cases h1 : ∃ v ∈ l₁, r.count ≤ (l₁.count v : Int)
  · rw [SumDistro_evalRoll_pos r l₁ h1, SumDistro_evalRoll_pos r l₂ (hc.mp h1), h.sum_eq]
  · rw [SumDistro_evalRoll_neg r l₁ h1,
      SumDistro_evalRoll_neg r l₂ (fun c => h1 (hc.mpr c))]

theorem FullHouse_evalRoll_perm (r : FullHouse) {l₁ l₂ : List Int}
    (h : l₁.Perm l₂) : r.evalRoll l₁ = r.evalRoll l₂ := by
  have h2 := exists_count_perm h (fun c => c = 2)
  have h3 := exists_count_perm h (fun c => c = 3)
  by_cases h1 : (∃ v ∈ l₁, l₁.count v = 2) ∧ (∃ v ∈ l₁, l₁.count v = 3)
  · rw [FullHouse_evalRoll_pos r l₁ h1,
      FullHouse_evalRoll_pos r l₂ ⟨h2.mp h1.1, h3.mp h1.2⟩]
  · rw [FullHouse_evalRoll_neg r l₁ h1,
      FullHouse_evalRoll_neg r l₂ (fun c => h1 ⟨h2.mpr c.1, h3.mpr c.2⟩)]

theorem setHas_mkSet_perm {l₁ l₂ : List Int} (h : l₁.Perm l₂) (x : Int) :
    setHas (mkSet l₁) x = setHas (mkSet l₂) x := by
  rw [setHas_mkSet, setHas_mkSet]
  exact decide_eq_decide.mpr h.mem_iff

theorem SmallStraight_evalRoll_perm (r : SmallStraight) {l₁ l₂ : List Int}
    (h : l₁.Perm l₂) : r.evalRoll l₁ = r.evalRoll l₂ := by
  unfold SmallStraight.evalRoll
  simp only [setHas_mkSet_perm h]

theorem LargeStraight_evalRoll_perm (r : LargeStraight) {l₁ l₂ : List Int}
    (h : l₁.Perm l₂) : r.evalRoll l₁ = r.evalRoll l₂ := by
  unfold LargeStraight.evalRoll setSize
  simp only [setHas_mkSet_perm h, (mkSet_perm h).length_eq]

theorem Yahtzee_evalRoll_perm (r : Yahtzee) {l₁ l₂ : List Int} (hlen : l₁.length = 5)
    (h : l₁.Perm l₂) : r.evalRoll l₁ = r.evalRoll l₂ := by
  have hlen2 : l₂.length = 5 := h.length_eq ▸ hlen
  have key : (∃ v, l₁ = [v, v, v, v, v]) ↔ ∃ v, l₂ = [v, v, v, v, v] := by
    constructor
    · rintro ⟨v, hv⟩
      refine ⟨v, ?_⟩
      have : l₂.Perm (List.replicate 5 v) := h.symm.trans (hv ▸ List.Perm.refl _)
      exact List.perm_replicate.mp this
    · rintro ⟨v, hv⟩
      refine ⟨v, ?_⟩
      have : l₁.Perm (List.replicate 5 v) := h.trans (hv ▸ List.Perm.refl _)
      exact List.perm_replicate.mp this
  by_cases h1 : ∃ v, l₁ = [v, v, v, v, v]
  · rw [Yahtzee_evalRoll_pos r l₁ hlen h1, Yahtzee_evalRoll_pos r l₂ hlen2 (key.mp h1)]
  · rw [Yahtzee_evalRoll_neg r l₁ hlen h1,
      Yahtzee_evalRoll_neg r l₂ hlen2 (fun c => h1 (key.mpr c))]

/-! ## The claims -/

/-- C1 (fails on the code): the hand `[5,5,5,5,5]` is a well-formed hand without
any run of four consecutive values, yet `smallStraight.evalRoll` pays 30 on it,
because `|| d.has(5)` stands outside the conjunction. -/
theorem smallStraight_pays_without_run :
    IsHand [5, 5, 5, 5, 5] ∧ ¬ HasRunOfFour [5, 5, 5, 5, 5] ∧
      smallStraight.evalRoll [5, 5, 5, 5, 5] = some 30 := by
  decide

/-- C2: on every hand of five dice with values in 1..6, `largeStraight.evalRoll`
returns 40 when the hand is a permutation of `[1,2,3,4,5]` or of `[2,3,4,5,6]` and 0
otherwise; `[1,2,3,4,5]` and `[2,3,4,5,6]` score 40 and `[1,2,3,4,6]` scores 0. -/
theorem largeStraight_evalRoll_spec :
    (∀ dice : List Int, IsHand dice →
      ((dice.Perm [1, 2, 3, 4, 5] ∨ dice.Perm [2, 3, 4, 5, 6]) →
        largeStraight.evalRoll dice = some 40) ∧
      (¬ (dice.Perm [1, 2, 3, 4, 5] ∨ dice.Perm [2, 3, 4, 5, 6]) →
        largeStraight.evalRoll dice = some 0)) ∧
    largeStraight.evalRoll [1, 2, 3, 4, 5] = some 40 ∧
    largeStraight.evalRoll [2, 3, 4, 5, 6] = some 40 ∧
    largeStraight.evalRoll [1, 2, 3, 4, 6] = some 0 := by
  refine ⟨?_, by decide, by decide, by decide⟩
  intro dice h
  constructor
  · intro hp
    apply LargeStraight_evalRoll_pos
    rcases hp with hp | hp
    · refine ⟨?_, Or.inr ?_⟩
      · have hn : dice.Nodup := hp.nodup_iff.mpr (by decide)
        exact ((setSize_mkSet_eq_length_iff dice).mpr hn).trans h.1
      · intro h6
        exact absurd (hp.mem_iff.mp h6) (by decide)
    · refine ⟨?_, Or.inl ?_⟩
      · have hn : dice.Nodup := hp.nodup_iff.mpr (by decide)
        exact ((setSize_mkSet_eq_length_iff dice).mpr hn).trans h.1
      · intro h1
        exact absurd (hp.mem_iff.mp h1) (by decide)
  · intro hnp
    apply LargeStraight_evalRoll_neg
    rintro ⟨hsz, hends⟩
    have hn : dice.Nodup :=
      (setSize_mkSet_eq_length_iff dice).mp (hsz.trans h.1.symm)
    have hlen : ([1, 2, 3, 4, 5] : List Int).length ≤ dice.length := by
      rw [h.1]; decide
    rcases hends with h1 | h6
    · exact hnp (Or.inr (perm_of_nodup_of_subset hn (subset_high_run h h1) hlen))
    · exact hnp (Or.inl (perm_of_nodup_of_subset hn (subset_low_run h h6) hlen))

/-- A shuffled large straight is a hand to which C2 applies, and it scores 40. -/
theorem largeStraight_evalRoll_spec_witness :
    IsHand [3, 1, 5, 2, 4] ∧ largeStraight.evalRoll [3, 1, 5, 2, 4] = some 40 :=
  ⟨by decide,
   (largeStraight_evalRoll_spec.1 [3, 1, 5, 2, 4] (by decide)).1 (Or.inl (by decide))⟩

/-- C3: on a hand of five dice each of the thirteen exported rules returns the same
score for every permutation of the hand. -/
theorem exportedRules_perm (dice dice' : List Int) (hlen : dice.length = 5)
    (hp : dice'.Perm dice) : ∀ f ∈ exportedRules, f dice' = f dice := by
  have hlen' : dice'.length = 5 := hp.length_eq.trans hlen
  intro f hf
  simp only [exportedRules, List.mem_cons, List.mem_singleton, List.not_mem_nil,
    or_false] at hf
  rcases hf with rfl | rfl | rfl | rfl | rfl | rfl | rfl | rfl | rfl | rfl | rfl | rfl | rfl
  · exact TotalOneNumber_evalRoll_perm ones hp
  · exact TotalOneNumber_evalRoll_perm twos hp
  · exact TotalOneNumber_evalRoll_perm threes hp
  · exact TotalOneNumber_evalRoll_perm fours hp
  · exact TotalOneNumber_evalRoll_perm fives hp
  · exact TotalOneNumber_evalRoll_perm sixes hp
  · exact SumDistro_evalRoll_perm threeOfKind hp
  · exact SumDistro_evalRoll_perm fourOfKind hp
  · exact FullHouse_evalRoll_perm fullHouse hp
  · exact SmallStraight_evalRoll_perm smallStraight hp
  · exact LargeStraight_evalRoll_perm largeStraight hp
  · exact Yahtzee_evalRoll_perm yahtzee hlen' hp
  · exact SumDistro_evalRoll_perm chance hp

/-- Swapping the first two dice of `[1,2,3,3,5]` does not change the `yahtzee`
score, one of the thirteen exported rules. -/
theorem exportedRules_perm_witness :
    ([1, 2, 3, 3, 5] : List Int).length = 5 ∧
      ([2, 1, 3, 3, 5] : List Int).Perm [1, 2, 3, 3, 5] ∧
      yahtzee.evalRoll [2, 1, 3, 3, 5] = yahtzee.evalRoll [1, 2, 3, 3, 5] :=
  ⟨by decide, by decide,
   exportedRules_perm [1, 2, 3, 3, 5] [2, 1, 3, 3, 5] (by decide) (by decide)
     yahtzee.evalRoll (by simp [exportedRules])⟩

/-- C4: on every hand of five dice `yahtzee.evalRoll` returns 50 when all five dice
show the same value and 0 otherwise, although only the first frequency is inspected;
`[5,5,5,5,5]` gives 50 and `[5,5,5,5,4]` gives 0. -/
theorem yahtzee_evalRoll_spec :
    (∀ dice : List Int, dice.length = 5 →
      ((∃ v, dice = [v, v, v, v, v]) → yahtzee.evalRoll dice = some 50) ∧
      (¬ (∃ v, dice = [v, v, v, v, v]) → yahtzee.evalRoll dice = some 0)) ∧
    yahtzee.evalRoll [5, 5, 5, 5, 5] = some 50 ∧
    yahtzee.evalRoll [5, 5, 5, 5, 4] = some 0 := by
  refine ⟨?_, by decide, by decide⟩
  intro dice hlen
  exact ⟨Yahtzee_evalRoll_pos yahtzee dice hlen, Yahtzee_evalRoll_neg yahtzee dice hlen⟩

/-- The hand `[4,4,4,4,3]` has five dice that are not all equal, and scores 0. -/
theorem yahtzee_evalRoll_spec_witness :
    ([4, 4, 4, 4, 3] : List Int).length = 5 ∧
      (¬ ∃ v : Int, [4, 4, 4, 4, 3] = [v, v, v, v, v]) ∧
      yahtzee.evalRoll [4, 4, 4, 4, 3] = some 0 :=
  have hne : ¬ ∃ v : Int, [4, 4, 4, 4, 3] = [v, v, v, v, v] := by
    rintro ⟨v, hv⟩
    simp only [List.cons.injEq, and_true] at hv
    omega
  ⟨by decide, hne, (yahtzee_evalRoll_spec.1 [4, 4, 4, 4, 3] (by decide)).2 hne⟩

theorem count_triple_pair {a b : Int} (hab : a ≠ b) :
    List.count a [a, a, a, b, b] = 3 ∧ List.count b [a, a, a, b, b] = 2 := by
  have hba : b ≠ a := fun e => hab e.symm
  constructor
  · simp [List.count_cons, hba]
  · simp [List.count_cons, hab]

theorem fullHouse_iff (dice : List Int) (hlen : dice.length = 5) :
    ((∃ v ∈ dice, dice.count v = 2) ∧ (∃ v ∈ dice, dice.count v = 3)) ↔
      ∃ a b, a ≠ b ∧ dice.Perm [a, a, a, b, b] := by
  constructor
  · rintro ⟨⟨v, _, hv⟩, ⟨w, _, hw⟩⟩
    have hwv : w ≠ v := by
      intro e
      rw [e, hv] at hw
      omega
    refine ⟨w, v, hwv, ?_⟩
    have hc := count_triple_pair hwv
    have hsub : List.Subperm [w, w, w, v, v] dice := by
      rw [List.subperm_ext_iff]
      intro x hx
      simp only [List.mem_cons, List.mem_singleton, List.not_mem_nil, or_false] at hx
      have hx' : x = w ∨ x = v := by tauto
      rcases hx' with rfl | rfl
      · rw [hc.1, hw]
      · rw [hc.2, hv]
    exact (hsub.perm_of_length_le (le_of_eq hlen)).symm
  · rintro ⟨a, b, hab, hp⟩
    have hc := count_triple_pair hab
    refine ⟨⟨b, hp.mem_iff.mpr (by simp), ?_⟩, ⟨a, hp.mem_iff.mpr (by simp), ?_⟩⟩
    · rw [hp.count_eq, hc.2]
    · rw [hp.count_eq, hc.1]

/-- C5: on every hand of five dice `fullHouse.evalRoll` returns 25 when the hand
consists of two distinct values, one three times and the other twice, and 0 otherwise;
`[3,3,2,2,2]` gives 25, the four-of-a-kind `[3,3,3,3,2]` and every five-of-a-kind
give 0. -/
theorem fullHouse_evalRoll_spec :
    (∀ dice : List Int, dice.length = 5 →
      ((∃ a b, a ≠ b ∧ dice.Perm [a, a, a, b, b]) → fullHouse.evalRoll dice = some 25) ∧
      (¬ (∃ a b, a ≠ b ∧ dice.Perm [a, a, a, b, b]) → fullHouse.evalRoll dice = some 0)) ∧
    fullHouse.evalRoll [3, 3, 2, 2, 2] = some 25 ∧
    fullHouse.evalRoll [3, 3, 3, 3, 2] = some 0 ∧
    (∀ v : Int, fullHouse.evalRoll [v, v, v, v, v] = some 0) := by
  refine ⟨?_, by decide, by decide, ?_⟩
  · intro dice hlen
    constructor
    · intro h
      exact FullHouse_evalRoll_pos fullHouse dice ((fullHouse_iff dice hlen).mpr h)
    · intro h
      exact FullHouse_evalRoll_neg fullHouse dice
        (fun c => h ((fullHouse_iff dice hlen).mp c))
  · intro v
    apply FullHouse_evalRoll_neg
    rintro ⟨⟨w, hw, hc⟩, _⟩
    simp only [List.mem_cons, List.mem_singleton, List.not_mem_nil, or_false,
      or_self] at hw
    subst hw
    simp at hc

/-- The hand `[6,1,6,1,6]` is a permutation of three sixes and two ones and
scores 25. -/
theorem fullHouse_evalRoll_spec_witness :
    ([6, 1, 6, 1, 6] : List Int).length = 5 ∧ fullHouse.evalRoll [6, 1, 6, 1, 6] = some 25 :=
  ⟨by decide,
   (fullHouse_evalRoll_spec.1 [6, 1, 6, 1, 6] (by decide)).1
     ⟨6, 1, by decide, by decide⟩⟩

theorem exists_count_ge_iff (n : Int) (dice : List Int) (hne : dice ≠ []) :
    (∃ v, n ≤ (dice.count v : Int)) ↔ ∃ v ∈ dice, n ≤ (dice.count v : Int) := by
  constructor
  · rintro ⟨v, hv⟩
    by_cases hm : v ∈ dice
    · exact ⟨v, hm, hv⟩
    · rw [List.count_eq_zero_of_not_mem hm] at hv
      obtain ⟨a, t, rfl⟩ := List.exists_cons_of_ne_nil hne
      refine ⟨a, List.mem_cons_self a t, le_trans hv ?_⟩
      exact Int.ofNat_le.mpr (Nat.zero_le _)
  · rintro ⟨v, _, hv⟩
    exact ⟨v, hv⟩

theorem ne_nil_of_length_five {dice : List Int} (hlen : dice.length = 5) : dice ≠ [] := by
  intro e
  rw [e] at hlen
  exact absurd hlen (by decide)

theorem SumDistro_evalRoll_five (r : SumDistro) (dice : List Int) (hlen : dice.length = 5) :
    ((∃ v, r.count ≤ (dice.count v : Int)) → r.evalRoll dice = some dice.sum) ∧
    (¬ (∃ v, r.count ≤ (dice.count v : Int)) → r.evalRoll dice = some 0) := by
  have hiff := exists_count_ge_iff r.count dice (ne_nil_of_length_five hlen)
  exact ⟨fun h => SumDistro_evalRoll_pos r dice (hiff.mp h),
    fun h => SumDistro_evalRoll_neg r dice (fun c => h (hiff.mpr c))⟩

/-- C6: for every count parameter `n` and every hand of five dice, a `SumDistro` rule
with `count = n` returns the sum of the dice when some face value occurs at least `n`
times and 0 otherwise; `threeOfKind` gives 15 on `[4,4,4,2,1]` and 0 on `[4,4,2,2,1]`,
and `fourOfKind` pays the sum exactly when some face occurs at least four times. -/
theorem sumDistro_evalRoll_spec :
    (∀ (n : Int) (dice : List Int), dice.length = 5 →
      ((∃ v, n ≤ (dice.count v : Int)) →
        SumDistro.evalRoll { count := n } dice = some dice.sum) ∧
      (¬ (∃ v, n ≤ (dice.count v : Int)) →
        SumDistro.evalRoll { count := n } dice = some 0)) ∧
    threeOfKind.evalRoll [4, 4, 4, 2, 1] = some 15 ∧
    threeOfKind.evalRoll [4, 4, 2, 2, 1] = some 0 ∧
    (∀ dice : List Int, dice.length = 5 →
      ((∃ v, 4 ≤ dice.count v) → fourOfKind.evalRoll dice = some dice.sum) ∧
      (¬ (∃ v, 4 ≤ dice.count v) → fourOfKind.evalRoll dice = some 0)) := by
  refine ⟨?_, by decide, by decide, ?_⟩
  · intro n dice hlen
    exact SumDistro_evalRoll_five { count := n } dice hlen
  · intro dice hlen
    have h := SumDistro_evalRoll_five fourOfKind dice hlen
    have hiff : (∃ v, fourOfKind.count ≤ (dice.count v : Int)) ↔ ∃ v, 4 ≤ dice.count v := by
      constructor
      · rintro ⟨v, hv⟩
        have hv4 : (4 : Int) ≤ (dice.count v : Int) := hv
        exact ⟨v, by exact_mod_cast hv4⟩
      · rintro ⟨v, hv⟩
        exact ⟨v, by show (4 : Int) ≤ _; exact_mod_cast hv⟩
    exact ⟨fun c => h.1 (hiff.mpr c), fun c => h.2 (fun c2 => c (hiff.mp c2))⟩

/-- With `count = 2` the hand `[6,1,6,2,3]` has a face occurring twice and scores
its sum 18. -/
theorem sumDistro_evalRoll_spec_witness :
    ([6, 1, 6, 2, 3] : List Int).length = 5 ∧
      SumDistro.evalRoll { count := 2 } [6, 1, 6, 2, 3] = some 18 :=
  ⟨by decide,
   (sumDistro_evalRoll_spec.1 2 [6, 1, 6, 2, 3] (by decide)).1 ⟨6, by decide⟩⟩

/-- C7: when `v` occurs exactly `k` times in the hand, `Rule.count` returns `k` and a
`TotalOneNumber` rule with `val = v` returns `v * k`; the exported rules `ones` to
`sixes` return 1, 2, ..., 6 times the number of dice showing their face. -/
theorem totalOneNumber_evalRoll_spec :
    (∀ (v : Int) (dice : List Int) (k : Nat), dice.count v = k →
      Rule.count dice v = k ∧ TotalOneNumber.evalRoll { val := v } dice = some (v * k)) ∧
    (∀ dice : List Int,
      ones.evalRoll dice = some (1 * (Rule.count dice 1 : Int)) ∧
      twos.evalRoll dice = some (2 * (Rule.count dice 2 : Int)) ∧
      threes.evalRoll dice = some (3 * (Rule.count dice 3 : Int)) ∧
      fours.evalRoll dice = some (4 * (Rule.count dice 4 : Int)) ∧
      fives.evalRoll dice = some (5 * (Rule.count dice 5 : Int)) ∧
      sixes.evalRoll dice = some (6 * (Rule.count dice 6 : Int))) := by
  constructor
  · intro v dice k hk
    have hc : Rule.count dice v = k := (count_eq dice v).trans hk
    refine ⟨hc, ?_⟩
    unfold TotalOneNumber.evalRoll
    rw [hc]
  · intro dice
    exact ⟨rfl, rfl, rfl, rfl, rfl, rfl⟩

/-- Three of the dice of `[4,2,4,4,1]` show 4, so the rule for fours gives 12. -/
theorem totalOneNumber_evalRoll_spec_witness :
    List.count (4 : Int) [4, 2, 4, 4, 1] = 3 ∧
      TotalOneNumber.evalRoll { val := 4 } [4, 2, 4, 4, 1] = some (4 * (3 : Nat)) :=
  ⟨by decide, (totalOneNumber_evalRoll_spec.1 4 [4, 2, 4, 4, 1] 3 (by decide)).2⟩

/-- C8: on every hand of five dice `chance.evalRoll` returns the sum of the dice. -/
theorem chance_evalRoll_spec (dice : List Int) (hlen : dice.length = 5) :
    chance.evalRoll dice = some dice.sum := by
  apply (SumDistro_evalRoll_five chance dice hlen).1
  exact ⟨0, Int.ofNat_le.mpr (Nat.zero_le _)⟩

/-- The five dice `[6,1,3,3,2]` score their sum 15 under `chance`. -/
theorem chance_evalRoll_spec_witness :
    ([6, 1, 3, 3, 2] : List Int).length = 5 ∧ chance.evalRoll [6, 1, 3, 3, 2] = some 15 :=
  ⟨by decide, chance_evalRoll_spec [6, 1, 3, 3, 2] (by decide)⟩

theorem TotalOneNumber_evalRoll_nonneg (r : TotalOneNumber) (hr : 0 ≤ r.val)
    (dice : List Int) : ∃ n, r.evalRoll dice = some n ∧ 0 ≤ n :=
  ⟨_, rfl, mul_nonneg hr (Int.ofNat_le.mpr (Nat.zero_le _))⟩

theorem SumDistro_evalRoll_nonneg (r : SumDistro) (dice : List Int)
    (hd : ∀ d ∈ dice, 0 ≤ d) : ∃ n, r.evalRoll dice = some n ∧ 0 ≤ n := by
  by_cases h : ∃ v ∈ dice, r.count ≤ (dice.count v : Int)
  · exact ⟨_, SumDistro_evalRoll_pos r dice h, List.sum_nonneg hd⟩
  · exact ⟨_, SumDistro_evalRoll_neg r dice h, le_refl 0⟩

/-- C9: on every hand of five dice with values in 1..6, each of the thirteen exported
rules returns a number (no error is raised) and that number is non-negative. -/
theorem exportedRules_total_nonneg (dice : List Int) (h : IsHand dice) :
    ∀ f ∈ exportedRules, ∃ n : Int, f dice = some n ∧ 0 ≤ n := by
  have hd : ∀ d ∈ dice, (0 : Int) ≤ d := fun d hd => le_trans (by decide) (h.2 d hd).1
  intro f hf
  simp only [exportedRules, List.mem_cons, List.mem_singleton, List.not_mem_nil,
    or_false] at hf
  rcases hf with rfl | rfl | rfl | rfl | rfl | rfl | rfl | rfl | rfl | rfl | rfl | rfl | rfl
  · exact TotalOneNumber_evalRoll_nonneg ones (by decide) dice
  · exact TotalOneNumber_evalRoll_nonneg twos (by decide) dice
  · exact TotalOneNumber_evalRoll_nonneg threes (by decide) dice
  · exact TotalOneNumber_evalRoll_nonneg fours (by decide) dice
  · exact TotalOneNumber_evalRoll_nonneg fives (by decide) dice
  · exact TotalOneNumber_evalRoll_nonneg sixes (by decide) dice
  · exact SumDistro_evalRoll_nonneg threeOfKind dice hd
  · exact SumDistro_evalRoll_nonneg fourOfKind dice hd
  · unfold FullHouse.evalRoll
    dsimp only
    split_ifs
    · exact ⟨_, rfl, by decide⟩
    · exact ⟨_, rfl, by decide⟩
  · unfold SmallStraight.evalRoll
    dsimp only
    split_ifs
    · exact ⟨_, rfl, by decide⟩
    · exact ⟨_, rfl, by decide⟩
    · exact ⟨_, rfl, by decide⟩
  · unfold LargeStraight.evalRoll
    dsimp only
    split_ifs
    · exact ⟨_, rfl, by decide⟩
    · exact ⟨_, rfl, by decide⟩
  · unfold Yahtzee.evalRoll
    split_ifs
    · exact ⟨_, rfl, by decide⟩
    · exact ⟨_, rfl, by decide⟩
  · exact SumDistro_evalRoll_nonneg chance dice hd

/-- The hand `[1,6,3,3,2]` is well formed, so `threeOfKind`, one of the thirteen
exported rules, returns a non-negative number on it. -/
theorem exportedRules_total_nonneg_witness :
    IsHand [1, 6, 3, 3, 2] ∧
      ∃ n : Int, threeOfKind.evalRoll [1, 6, 3, 3, 2] = some n ∧ 0 ≤ n :=
  ⟨by decide,
   exportedRules_total_nonneg [1, 6, 3, 3, 2] (by decide)
     threeOfKind.evalRoll (by simp [exportedRules])⟩

/-- C10: `Rule.sum` returns the arithmetic sum of the dice for every non-empty list and
raises an error, returning no number, on the empty list. -/
theorem sum_spec :
    (∀ dice : List Int, dice ≠ [] → Rule.sum dice = some dice.sum) ∧ Rule.sum [] = none := by
  refine ⟨?_, rfl⟩
  intro dice hne
  obtain ⟨a, t, rfl⟩ := List.exists_cons_of_ne_nil hne
  exact sum_eq a t

/-- The non-empty list `[4,4,4,2,1]` sums to 15. -/
theorem sum_spec_witness :
    ([4, 4, 4, 2, 1] : List Int) ≠ [] ∧ Rule.sum [4, 4, 4, 2, 1] = some 15 :=
  ⟨by decide, sum_spec.1 [4, 4, 4, 2, 1] (by decide)⟩

theorem foldl_setAdd_eq (t s : List Int) :
    t.foldl setAdd s = s ++ (distinctInOrder t).filter (fun x => decide (x ∉ s)) := by
  induction t generalizing s with
  | nil => simp [distinctInOrder]
  | cons d t ih =>
    rw [List.foldl_cons, ih]
    unfold setAdd
    by_cases h : d ∈ s
    · rw [if_pos h]
      congr 1
      simp only [distinctInOrder, List.filter_cons, h, not_true_eq_false, decide_False,
        Bool.false_eq_true, if_false, List.filter_filter]
      apply List.filter_congr
      intro x _
      by_cases hx : x ∈ s
      · simp [hx]
      · have : x ≠ d := fun e => hx (e ▸ h)
        simp [hx, this]
    · rw [if_neg h, List.append_assoc]
      congr 1
      simp only [distinctInOrder, List.filter_cons, h, not_false_eq_true, decide_True,
        if_true, List.filter_filter, List.singleton_append]
      congr 1
      apply List.filter_congr
      intro x _
      by_cases hx : x ∈ s <;> by_cases hd : x = d <;> simp [hx, hd]

theorem mkSet_eq_distinctInOrder (dice : List Int) : mkSet dice = distinctInOrder dice := by
  unfold mkSet
  rw [foldl_setAdd_eq]
  simp

theorem mkSet_perm_dedup (dice : List Int) : (mkSet dice).Perm dice.dedup := by
  rw [List.perm_ext_iff_of_nodup (nodup_mkSet dice) (List.nodup_dedup dice)]
  intro a
  rw [mem_mkSet, List.mem_dedup]

/-- C11: `Rule.freq` returns, for the distinct values of the list in order of first
occurrence, their numbers of occurrences (`[2,2,3,3,3]` gives `[2,3]`); so it has one
entry per distinct value, every entry is at least 1 and the entries add up to the
length of the list. -/
theorem freq_spec (dice : List Int) :
    Rule.freq dice = (distinctInOrder dice).map (fun v => dice.count v) ∧
    Rule.freq [2, 2, 3, 3, 3] = [2, 3] ∧
    (Rule.freq dice).length = dice.toFinset.card ∧
    (∀ c ∈ Rule.freq dice, 1 ≤ c) ∧
    (Rule.freq dice).sum = dice.length := by
  refine ⟨?_, by decide, ?_, ?_, ?_⟩
  · rw [freq_eq, mkSet_eq_distinctInOrder]
  · rw [freq_eq, List.length_map, (mkSet_perm_dedup dice).length_eq, List.card_toFinset]
  · intro c hc
    obtain ⟨v, hv, e⟩ := (mem_freq dice c).mp hc
    rw [← e]
    exact List.one_le_count_iff.mpr hv
  · rw [freq_eq, ((mkSet_perm_dedup dice).map _).sum_eq]
    exact List.sum_map_count_dedup_eq_length dice

theorem smallStraight_cond (dice : List Int) :
    ((setHas (mkSet dice) 2 && setHas (mkSet dice) 3 && setHas (mkSet dice) 4 &&
        setHas (mkSet dice) 1) || setHas (mkSet dice) 5) = true ∨
    ((setHas (mkSet dice) 3 && setHas (mkSet dice) 4 && setHas (mkSet dice) 5 &&
        setHas (mkSet dice) 2) || setHas (mkSet dice) 6) = true ↔
      (1 ∈ dice ∧ 2 ∈ dice ∧ 3 ∈ dice ∧ 4 ∈ dice) ∨ 5 ∈ dice ∨ 6 ∈ dice := by
  simp only [setHas_mkSet, Bool.or_eq_true, Bool.and_eq_true, decide_eq_true_eq]
  tauto

theorem SmallStraight_evalRoll_pos (r : SmallStraight) (dice : List Int)
    (h : (1 ∈ dice ∧ 2 ∈ dice ∧ 3 ∈ dice ∧ 4 ∈ dice) ∨ 5 ∈ dice ∨ 6 ∈ dice) :
    r.evalRoll dice = some r.score := by
  have hc := (smallStraight_cond dice).mpr h
  unfold SmallStraight.evalRoll
  dsimp only
  split_ifs with h1 h2
  · rfl
  · rfl
  · exact absurd hc (fun c => c.elim h1 h2)

theorem SmallStraight_evalRoll_neg (r : SmallStraight) (dice : List Int)
    (h : ¬ ((1 ∈ dice ∧ 2 ∈ dice ∧ 3 ∈ dice ∧ 4 ∈ dice) ∨ 5 ∈ dice ∨ 6 ∈ dice)) :
    r.evalRoll dice = some 0 := by
  unfold SmallStraight.evalRoll
  dsimp only
  split_ifs with h1 h2
  · exact absurd ((smallStraight_cond dice).mp (Or.inl h1)) h
  · exact absurd ((smallStraight_cond dice).mp (Or.inr h2)) h
  · rfl

/-- C12: every hand that contains a 5 or a 6 scores 30 under `smallStraight`,
whatever the other dice show; `[5,5,5,5,5]` and `[6,1,1,1,1]` both score 30. -/
theorem smallStraight_five_or_six :
    (∀ dice : List Int, (5 ∈ dice ∨ 6 ∈ dice) → smallStraight.evalRoll dice = some 30) ∧
    smallStraight.evalRoll [5, 5, 5, 5, 5] = some 30 ∧
    smallStraight.evalRoll [6, 1, 1, 1, 1] = some 30 := by
  refine ⟨?_, by decide, by decide⟩
  intro dice h
  exact SmallStraight_evalRoll_pos smallStraight dice (Or.inr h)

/-- The hand `[1,1,2,2,6]` contains a 6 and scores 30. -/
theorem smallStraight_five_or_six_witness :
    ((5 : Int) ∈ [1, 1, 2, 2, 6] ∨ (6 : Int) ∈ [1, 1, 2, 2, 6]) ∧
      smallStraight.evalRoll [1, 1, 2, 2, 6] = some 30 :=
  ⟨by decide, smallStraight_five_or_six.1 [1, 1, 2, 2, 6] (by decide)⟩

theorem looseNeUndefined_iff (v : JsVal) :
    v.looseNeUndefined = true ↔ v ≠ JsVal.undefined ∧ v ≠ JsVal.null := by
  cases v <;> simp [JsVal.looseNeUndefined]

theorem render_of_disabled {H : Type} (props : RuleRowProps H)
    (h : props.score.looseNeUndefined = true) : RenderedDisabled (RuleRow.render props) := by
  unfold RenderedDisabled RuleRow.render
  simp [h]

theorem render_of_not_disabled {H : Type} (props : RuleRowProps H)
    (h : props.score.looseNeUndefined = false) :
    RenderedActive props (RuleRow.render props) := by
  unfold RenderedActive RuleRow.render
  simp [h]

/-- C13: a `RuleRow` is rendered as disabled (class `RuleRow-disabled`, no click
handler, no tooltip text) exactly when its score is neither `undefined` nor `null`, so
a category played for a score of 0 is disabled; it is rendered as active (class
`RuleRow-active`, click handler `doScore`, tooltip `description`) when the score is
`undefined`. -/
theorem ruleRow_render_spec {H : Type} (props : RuleRowProps H) :
    (RenderedDisabled (RuleRow.render props) ↔
      props.score ≠ JsVal.undefined ∧ props.score ≠ JsVal.null) ∧
    (props.score = JsVal.number 0 → RenderedDisabled (RuleRow.render props)) ∧
    (props.score = JsVal.undefined → RenderedActive props (RuleRow.render props)) := by
  refine ⟨⟨?_, ?_⟩, ?_, ?_⟩
  · intro hd
    rw [← looseNeUndefined_iff]
    by_contra hn
    have ha := render_of_not_disabled props (by simpa using hn)
    have h1 : (RuleRow.render props).onClick = none := hd.2.1
    rw [ha.2.1] at h1
    exact Option.noConfusion h1
  · intro h
    exact render_of_disabled props ((looseNeUndefined_iff _).mpr h)
  · intro h
    exact render_of_disabled props (by rw [h]; rfl)
  · intro h
    exact render_of_not_disabled props (by rw [h]; rfl)

/-- A row whose score is the number 0 is rendered as disabled. -/
theorem ruleRow_render_spec_witness :
    RenderedDisabled (RuleRow.render
      ({ score := JsVal.number 0, name := "Chance", doScore := (7 : Nat),
         description := "Sum all dice to get your score" } : RuleRowProps Nat)) :=
  (ruleRow_render_spec
    ({ score := JsVal.number 0, name := "Chance", doScore := (7 : Nat),
       description := "Sum all dice to get your score" } : RuleRowProps Nat)).2.1 rfl

theorem sum_eq_upper (dice : List Int) (h : ∀ d ∈ dice, 1 ≤ d ∧ d ≤ 6) :
    dice.sum = 1 * (dice.count 1 : Int) + 2 * (dice.count 2 : Int) + 3 * (dice.count 3 : Int)
      + 4 * (dice.count 4 : Int) + 5 * (dice.count 5 : Int) + 6 * (dice.count 6 : Int) := by
  induction dice with
  | nil => simp
  | cons a t ih =>
    have ht : ∀ d ∈ t, 1 ≤ d ∧ d ≤ 6 := fun d hd => h d (List.mem_cons_of_mem a hd)
    have ha := h a (List.mem_cons_self a t)
    have hcases : a = 1 ∨ a = 2 ∨ a = 3 ∨ a = 4 ∨ a = 5 ∨ a = 6 := by omega
    rw [List.sum_cons, ih ht]
    rcases hcases with rfl | rfl | rfl | rfl | rfl | rfl <;>
      simp [List.count_cons] <;> ring

/-- C14: on every hand of five dice with values in 1..6 the six upper-section scores
add up to `Rule.sum` of the hand, which is also the `chance` score. -/
theorem upper_section_total (dice : List Int) (h : IsHand dice) :
    ∃ a b c d e f : Int,
      ones.evalRoll dice = some a ∧ twos.evalRoll dice = some b ∧
      threes.evalRoll dice = some c ∧ fours.evalRoll dice = some d ∧
      fives.evalRoll dice = some e ∧ sixes.evalRoll dice = some f ∧
      Rule.sum dice = some (a + b + c + d + e + f) ∧
      chance.evalRoll dice = some (a + b + c + d + e + f) := by
  have hs : dice.sum = ones.val * (Rule.count dice ones.val : Int)
      + twos.val * (Rule.count dice twos.val : Int)
      + threes.val * (Rule.count dice threes.val : Int)
      + fours.val * (Rule.count dice fours.val : Int)
      + fives.val * (Rule.count dice fives.val : Int)
      + sixes.val * (Rule.count dice sixes.val : Int) := by
    simp only [count_eq]
    exact sum_eq_upper dice h.2
  refine ⟨_, _, _, _, _, _, rfl, rfl, rfl, rfl, rfl, rfl, ?_, ?_⟩
  · rw [← hs]
    obtain ⟨a, t, rfl⟩ := List.exists_cons_of_ne_nil (ne_nil_of_length_five h.1)
    exact sum_eq a t
  · rw [← hs]
    exact (SumDistro_evalRoll_five chance dice h.1).1 ⟨0, Int.ofNat_le.mpr (Nat.zero_le _)⟩

/-- On the hand `[1,6,3,3,2]` the upper section adds up to the `chance` score. -/
theorem upper_section_total_witness :
    IsHand [1, 6, 3, 3, 2] ∧
    ∃ a b c d e f : Int,
      ones.evalRoll [1, 6, 3, 3, 2] = some a ∧ twos.evalRoll [1, 6, 3, 3, 2] = some b ∧
      threes.evalRoll [1, 6, 3, 3, 2] = some c ∧ fours.evalRoll [1, 6, 3, 3, 2] = some d ∧
      fives.evalRoll [1, 6, 3, 3, 2] = some e ∧ sixes.evalRoll [1, 6, 3, 3, 2] = some f ∧
      Rule.sum [1, 6, 3, 3, 2] = some (a + b + c + d + e + f) ∧
      chance.evalRoll [1, 6, 3, 3, 2] = some (a + b + c + d + e + f) :=
  ⟨by decide, upper_section_total [1, 6, 3, 3, 2] (by decide)⟩

/-- C15: every hand whose set of values contains `{1,2,3,4}`, `{2,3,4,5}` or
`{3,4,5,6}` scores 30 under `smallStraight`. -/
theorem smallStraight_pays_every_run (dice : List Int) (h : HasRunOfFour dice) :
    smallStraight.evalRoll dice = some 30 := by
  apply SmallStraight_evalRoll_pos smallStraight dice
  rcases h with h | h | h
  · exact Or.inl h
  · exact Or.inr (Or.inl h.2.2.2)
  · exact Or.inr (Or.inl h.2.2.1)

/-- The hand `[4,1,3,2,2]` contains the run 1 to 4 and scores 30. -/
theorem smallStraight_pays_every_run_witness :
    HasRunOfFour [4, 1, 3, 2, 2] ∧ smallStraight.evalRoll [4, 1, 3, 2, 2] = some 30 :=
  ⟨by decide, smallStraight_pays_every_run [4, 1, 3, 2, 2] (by decide)⟩

theorem SumDistro_evalRoll_le (r₁ r₂ : SumDistro) (hle : r₁.count ≤ r₂.count)
    (dice : List Int) (hd : ∀ d ∈ dice, 0 ≤ d) :
    ∃ x y, r₂.evalRoll dice = some x ∧ r₁.evalRoll dice = some y ∧ x ≤ y := by
  by_cases h2 : ∃ v ∈ dice, r₂.count ≤ (dice.count v : Int)
  · have h1 : ∃ v ∈ dice, r₁.count ≤ (dice.count v : Int) := by
      obtain ⟨v, hv, hc⟩ := h2
      exact ⟨v, hv, le_trans hle hc⟩
    exact ⟨_, _, SumDistro_evalRoll_pos r₂ dice h2, SumDistro_evalRoll_pos r₁ dice h1,
      le_refl _⟩
  · obtain ⟨y, hy, hy0⟩ := SumDistro_evalRoll_nonneg r₁ dice hd
    exact ⟨0, y, SumDistro_evalRoll_neg r₂ dice h2, hy, hy0⟩

theorem SumDistro_evalRoll_of_ne_zero (r : SumDistro) (dice : List Int) (x : Int)
    (hx : r.evalRoll dice = some x) (h0 : x ≠ 0) :
    ∃ v ∈ dice, r.count ≤ (dice.count v : Int) := by
  by_contra hn
  rw [SumDistro_evalRoll_neg r dice hn] at hx
  exact h0 (Option.some.inj hx).symm

/-- C16: a `SumDistro` rule is monotone in its count parameter: on a non-empty hand
with positive dice, a larger count never scores more. On five dice
`fourOfKind ≤ threeOfKind ≤ chance`, and when `fourOfKind` is non-zero all three
equal the sum of the dice. -/
theorem sumDistro_count_monotone :
    (∀ (a b : Int) (dice : List Int), dice ≠ [] → (∀ d ∈ dice, 0 < d) → a ≤ b →
      ∃ x y, SumDistro.evalRoll { count := b } dice = some x ∧
        SumDistro.evalRoll { count := a } dice = some y ∧ x ≤ y) ∧
    (∀ dice : List Int, dice.length = 5 → (∀ d ∈ dice, 0 < d) →
      ∃ x y z, fourOfKind.evalRoll dice = some x ∧ threeOfKind.evalRoll dice = some y ∧
        chance.evalRoll dice = some z ∧ x ≤ y ∧ y ≤ z ∧
        (x ≠ 0 → x = dice.sum ∧ y = dice.sum ∧ z = dice.sum)) := by
  constructor
  · intro a b dice _ hpos hab
    exact SumDistro_evalRoll_le { count := a } { count := b } hab dice
      (fun d hd => le_of_lt (hpos d hd))
  · intro dice hlen hpos
    have hd : ∀ d ∈ dice, (0 : Int) ≤ d := fun d hd => le_of_lt (hpos d hd)
    obtain ⟨x, y, hx, hy, hxy⟩ :=
      SumDistro_evalRoll_le threeOfKind fourOfKind (by decide) dice hd
    have hz : chance.evalRoll dice = some dice.sum :=
      (SumDistro_evalRoll_five chance dice hlen).1 ⟨0, Int.ofNat_le.mpr (Nat.zero_le _)⟩
    obtain ⟨y', z', hy', hz', hyz⟩ :=
      SumDistro_evalRoll_le chance threeOfKind (by decide) dice hd
    have ey : y' = y := Option.some.inj (hy'.symm.trans hy)
    have ez : z' = dice.sum := Option.some.inj (hz'.symm.trans hz)
    subst ey
    refine ⟨x, y', dice.sum, hx, hy, hz, hxy, ez ▸ hyz, ?_⟩
    intro hx0
    have h4 := SumDistro_evalRoll_of_ne_zero fourOfKind dice x hx hx0
    have h3 : ∃ v ∈ dice, threeOfKind.count ≤ (dice.count v : Int) := by
      obtain ⟨v, hv, hc⟩ := h4
      exact ⟨v, hv, le_trans (by decide) hc⟩
    have ex := (SumDistro_evalRoll_pos fourOfKind dice h4).symm.trans hx
    have ey := (SumDistro_evalRoll_pos threeOfKind dice h3).symm.trans hy
    exact ⟨(Option.some.inj ex).symm, (Option.some.inj ey).symm, rfl⟩

/-- On `[4,4,4,2,1]` the rule with count 4 scores 0 and the rule with count 3 scores
15. -/
theorem sumDistro_count_monotone_witness :
    ([4, 4, 4, 2, 1] : List Int) ≠ [] ∧ (∀ d ∈ ([4, 4, 4, 2, 1] : List Int), 0 < d) ∧
      (3 : Int) ≤ 4 ∧
      ∃ x y, SumDistro.evalRoll { count := 4 } [4, 4, 4, 2, 1] = some x ∧
        SumDistro.evalRoll { count := 3 } [4, 4, 4, 2, 1] = some y ∧ x ≤ y :=
  ⟨by decide, by decide, by decide,
   sumDistro_count_monotone.1 3 4 [4, 4, 4, 2, 1] (by decide) (by decide) (by decide)⟩

theorem not_nodup_five_equal (v : Int) : ¬ ([v, v, v, v, v] : List Int).Nodup := by
  simp

theorem fullHouse_zero_of_five_equal (v : Int) :
    fullHouse.evalRoll [v, v, v, v, v] = some 0 := by
  apply FullHouse_evalRoll_neg
  rintro ⟨⟨w, hw, hc⟩, _⟩
  simp only [List.mem_cons, List.mem_singleton, List.not_mem_nil, or_false,
    or_self] at hw
  subst hw
  simp at hc

theorem largeStraight_zero_of_not_nodup (dice : List Int) (hlen : dice.length = 5)
    (hn : ¬ dice.Nodup) : largeStraight.evalRoll dice = some 0 := by
  apply LargeStraight_evalRoll_neg
  rintro ⟨hsz, _⟩
  exact hn ((setSize_mkSet_eq_length_iff dice).mp (hsz.trans hlen.symm))

theorem fullHouse_zero_of_nodup (dice : List Int) (hn : dice.Nodup) :
    fullHouse.evalRoll dice = some 0 := by
  apply FullHouse_evalRoll_neg
  rintro ⟨⟨v, _, hc⟩, _⟩
  have := List.nodup_iff_count_le_one.mp hn v
  omega

/-- C17: on every hand of five dice at most one of `fullHouse`, `largeStraight` and
`yahtzee` is non-zero (at least two of the three score 0); a hand that scores 50 as
`yahtzee` scores 0 as `fullHouse`. -/
theorem flat_rules_exclusive (dice : List Int) (hlen : dice.length = 5) :
    ((fullHouse.evalRoll dice = some 0 ∧ largeStraight.evalRoll dice = some 0) ∨
      (fullHouse.evalRoll dice = some 0 ∧ yahtzee.evalRoll dice = some 0) ∨
      (largeStraight.evalRoll dice = some 0 ∧ yahtzee.evalRoll dice = some 0)) ∧
    (yahtzee.evalRoll dice = some 50 → fullHouse.evalRoll dice = some 0) := by
  by_cases hy : ∃ v, dice = [v, v, v, v, v]
  · obtain ⟨v, rfl⟩ := hy
    have hf := fullHouse_zero_of_five_equal v
    exact ⟨Or.inl ⟨hf, largeStraight_zero_of_not_nodup _ hlen (not_nodup_five_equal v)⟩,
      fun _ => hf⟩
  · have hy0 := Yahtzee_evalRoll_neg yahtzee dice hlen hy
    constructor
    · by_cases hn : dice.Nodup
      · exact Or.inr (Or.inl ⟨fullHouse_zero_of_nodup dice hn, hy0⟩)
      · exact Or.inr (Or.inr ⟨largeStraight_zero_of_not_nodup dice hlen hn, hy0⟩)
    · intro h50
      rw [hy0] at h50
      exact absurd (Option.some.inj h50) (by decide)

/-- The Yahtzee hand `[2,2,2,2,2]` scores 50 as `yahtzee` and 0 as `fullHouse`. -/
theorem flat_rules_exclusive_witness :
    ([2, 2, 2, 2, 2] : List Int).length = 5 ∧ yahtzee.evalRoll [2, 2, 2, 2, 2] = some 50 ∧
      fullHouse.evalRoll [2, 2, 2, 2, 2] = some 0 :=
  ⟨by decide, by decide,
   (flat_rules_exclusive [2, 2, 2, 2, 2] (by decide)).2 (by decide)⟩

/-- C18: on every hand of five dice with values in 1..6, a hand that scores 40 under
`largeStraight` scores 30 under `smallStraight`. -/
theorem largeStraight_implies_smallStraight (dice : List Int) (h : IsHand dice)
    (hl : largeStraight.evalRoll dice = some 40) :
    smallStraight.evalRoll dice = some 30 := by
  by_cases hc : (mkSet dice).length = 5 ∧ (1 ∉ dice ∨ 6 ∉ dice)
  · obtain ⟨hsz, hends⟩ := hc
    have hn : dice.Nodup :=
      (setSize_mkSet_eq_length_iff dice).mp (hsz.trans h.1.symm)
    have hlen : ([1, 2, 3, 4, 5] : List Int).length ≤ dice.length := le_of_eq h.1.symm
    have h5 : (5 : Int) ∈ dice := by
      rcases hends with h1 | h6
      · exact (perm_of_nodup_of_subset hn (subset_high_run h h1) hlen).mem_iff.mpr
          (by decide)
      · exact (perm_of_nodup_of_subset hn (subset_low_run h h6) hlen).mem_iff.mpr
          (by decide)
    exact SmallStraight_evalRoll_pos smallStraight dice (Or.inr (Or.inl h5))
  · rw [LargeStraight_evalRoll_neg largeStraight dice hc] at hl
    exact absurd (Option.some.inj hl) (by decide)

/-- The large straight `[6,2,4,3,5]` scores 40 and also 30 as a small straight. -/
theorem largeStraight_implies_smallStraight_witness :
    IsHand [6, 2, 4, 3, 5] ∧ largeStraight.evalRoll [6, 2, 4, 3, 5] = some 40 ∧
      smallStraight.evalRoll [6, 2, 4, 3, 5] = some 30 :=
  ⟨by decide, by decide,
   largeStraight_implies_smallStraight [6, 2, 4, 3, 5] (by decide) (by decide)⟩

end Rules
